import Mathlib

/-!
# Verification of the Encorely maintenance scripts

A shallow embedding, in Lean 4, of the Python maintenance scripts of the
repository (`scripts/scan_redundancy.py`, `scripts/scan_project.py`,
`scripts/check_path_hygiene.py`, `scripts/dependency_analyzer.py`,
`scripts/project_architect.py`, `scripts/architecture_diagram_generator.py`,
`fix_duplicates.py`), together with theorems settling the specification
claims about them.

Conventions of the embedding:
* A filesystem path is a list of name components (`List String`); rendering
  a path to the string the Python code manipulates inserts the separator
  `/` before every component, which is exactly the shape of the absolute
  path strings (`os.path.join` results) the scripts test with `in`,
  `startswith` and `endswith`.
* Python strings are modelled as `String` / `List Char`; Python's
  `sub in s` is `List.IsInfix` on the character lists, `s.startswith p` is
  `List.IsPrefixOf`, `s.endswith p` is `List.IsSuffixOf`.
* A directory tree is the mutual inductive `FsTree`/`FsForest`; `os.walk`
  (top-down, no pruning) is the mutual function `walkT`/`walkF`.
-/

namespace Encorely

/-- The path separator used by the scripts (`os.sep` on the POSIX systems
the repository targets). -/
def sepC : Char := '/'

mutual
/-- A directory tree: the files directly in a directory plus its named
subdirectories.  Mirrors what `os.walk` traverses. -/
inductive FsTree : Type where
  | node (files : List String) (children : FsForest)

/-- A list of named subdirectories of a directory. -/
inductive FsForest : Type where
  | nil
  | cons (name : String) (t : FsTree) (rest : FsForest)
end

mutual
/-- `os.walk(base)` (top-down, no pruning): yields `(dirpath, filenames)`
for the directory itself, then recursively for each subdirectory in order.
Directory paths are kept as component lists. -/
def walkT (base : List String) : FsTree → List (List String × List String)
  | .node files children => (base, files) :: walkF base children

/-- The forest half of `walkT`. -/
def walkF (base : List String) : FsForest → List (List String × List String)
  | .nil => []
  | .cons n t rest => walkT (base ++ [n]) t ++ walkF base rest
end

/-- Render a component list to the path string (as a character list) that
`os.walk` hands the script: a separator before every component, as in the
absolute paths `/root/sub/dir` the scripts receive. -/
def renderComps : List String → List Char
  | [] => []
  | c :: rest => sepC :: (c.data ++ renderComps rest)

/-- The skip test of the collection loops of `scan_redundancy.py` and
`scan_project.py`: `any(f"{os.sep}{x}{os.sep}" in base for x in excluded)`,
a plain substring test on the rendered directory path. -/
def skipBase (excl : List String) (b : List String) : Bool :=
  excl.any (fun x => decide ((sepC :: (x.data ++ [sepC])) <:+: renderComps b))

/-- `f.endswith('.swift')`. -/
def swiftExt (f : String) : Bool :=
  ".swift".data.isSuffixOf f.data

/-- The excluded directory names of `scan_redundancy.py`. -/
def exclRedundancy : List String :=
  [".git", ".build", "build", "DerivedData", "fastlane", "backup"]

/-- The excluded directory names of `scan_project.py`. -/
def exclProject : List String :=
  [".git", ".build", "build", "DerivedData"]

/-- The `swift_files` collection loop shared by `scan_redundancy.py` and
`scan_project.py`: walk the tree from the root, skip every directory whose
rendered path contains `/x/` for an excluded name `x`, and collect from the
remaining directories the files ending in `.swift` (as the pair of the
directory's component list and the file name, which `os.path.join` would
render as the full path). -/
def collect (excl : List String) (root : List String) (t : FsTree) :
    List (List String × String) :=
  (walkT root t).flatMap fun e =>
    if skipBase excl e.1 then []
    else (e.2.filter swiftExt).map fun f => (e.1, f)

/-- All `(dirpath, filename)` pairs of the walk, with no skipping and no
extension filter: the full enumeration of the tree's files. -/
def allEntries (root : List String) (t : FsTree) :
    List (List String × String) :=
  (walkT root t).flatMap fun e => e.2.map fun f => (e.1, f)

/-- The claim's reading of the collector: keep a file iff it has the target
extension and *no* excluded-directory ancestor at all (no component of its
directory path is an excluded name). -/
def claimedKeep (excl : List String) (e : List String × String) : Bool :=
  swiftExt e.2 && !(excl.any fun x => e.1.any fun c => c == x)

/-- The collector the claim describes: the full enumeration filtered by
`claimedKeep`. -/
def claimedCollect (excl : List String) (root : List String) (t : FsTree) :
    List (List String × String) :=
  (allEntries root t).filter (claimedKeep excl)

/-- What the code actually implements, stated structurally: keep a file iff
it has the target extension and no excluded name occurs as a *non-final*
component of its directory path (the file must lie at least two levels
beneath the excluded directory for the substring test `/x/` to fire; a file
directly inside an excluded directory is still collected). -/
def amendedKeep (excl : List String) (e : List String × String) : Bool :=
  swiftExt e.2 && !(excl.any fun x => e.1.dropLast.any fun c => c == x)

/-- The amended collector: the full enumeration filtered by `amendedKeep`. -/
def amendedCollect (excl : List String) (root : List String) (t : FsTree) :
    List (List String × String) :=
  (allEntries root t).filter (amendedKeep excl)

/-- A name is clean when it contains no separator character, as every real
file-name component handed out by `os.walk` does. -/
def cleanName (s : String) : Prop := sepC ∉ s.data

mutual
/-- All directory names in a tree are clean. -/
def cleanT : FsTree → Prop
  | .node _ children => cleanF children

/-- All directory names in a forest are clean. -/
def cleanF : FsForest → Prop
  | .nil => True
  | .cons n t rest => cleanName n ∧ cleanT t ∧ cleanF rest
end

/-- The concrete tree of the C1 counterexample: the root directory has a
single subdirectory `.git` holding `Foo.swift`. -/
def gitTree : FsTree :=
  .node [] (.cons ".git" (.node ["Foo.swift"] .nil) .nil)

/-- `renderComps` is empty exactly on the empty component list. -/
theorem renderComps_eq_nil {comps : List String} :
    renderComps comps = [] ↔ comps = [] := by
  cases comps <;> simp [renderComps]

/-- A block `x ++ [sepC]` is a prefix of `a ++ r` — where `x` is a
nonempty separator-free pattern, `a` is a separator-free component and `r`
is a rendered path (empty or separator-headed) — exactly when `x` is the
whole component `a` and `r` is nonempty. -/
theorem block_prefix_iff :
    ∀ (a x r : List Char), x ≠ [] → sepC ∉ x → sepC ∉ a →
      (r = [] ∨ ∃ q, r = sepC :: q) →
      (x ++ [sepC] <+: a ++ r ↔ x = a ∧ r ≠ []) := by
  intro a
  induction a with
  | nil =>
    intro x r hx hxs _ hr
    rcases hr with rfl | ⟨q, rfl⟩
    · simp only [List.nil_append, List.prefix_nil, List.append_eq_nil]
      constructor
      · rintro ⟨rfl, -⟩; exact absurd rfl hx
      · rintro ⟨rfl, -⟩; exact absurd rfl hx
    · rcases x with _ | ⟨x0, x'⟩
      · exact absurd rfl hx
      · simp only [List.nil_append, List.cons_append, List.cons_prefix_cons]
        constructor
        · rintro ⟨rfl, -⟩; exact absurd (List.mem_cons_self _ _) hxs
        · rintro ⟨h, -⟩; exact absurd h.symm (by simp)
  | cons a0 a' ih =>
    intro x r hx hxs has hr
    rcases x with _ | ⟨x0, x'⟩
    · exact absurd rfl hx
    simp only [List.cons_append, List.cons_prefix_cons]
    rcases x' with _ | ⟨x1, x''⟩
    · -- the pattern is a single character: `[x0, sepC] <+: a0 :: (a' ++ r)`
      constructor
      · rintro ⟨rfl, h⟩
        rcases a' with _ | ⟨a1, a''⟩
        · refine ⟨rfl, ?_⟩
          rcases hr with rfl | ⟨q, rfl⟩
          · simp at h
          · simp
        · exfalso
          simp only [List.nil_append, List.cons_append, List.cons_prefix_cons] at h
          refine has ?_
          rw [h.1]
          exact List.mem_cons_of_mem _ (List.mem_cons_self _ _)
      · rintro ⟨h, hrne⟩
        obtain ⟨h1, h2⟩ : x0 = a0 ∧ a' = [] := by
          injection h with h1 h2
          exact ⟨h1, h2.symm⟩
        subst h1
        subst h2
        refine ⟨rfl, ?_⟩
        rcases hr with rfl | ⟨q, rfl⟩
        · exact absurd rfl hrne
        · simp
    · -- the pattern has at least two characters: peel one and use the IH
      have hx' : (x1 :: x'' : List Char) ≠ [] := by simp
      have hxs' : sepC ∉ x1 :: x'' := fun h => hxs (List.mem_cons_of_mem _ h)
      have has' : sepC ∉ a' := fun h => has (List.mem_cons_of_mem _ h)
      rw [ih (x1 :: x'') r hx' hxs' has' hr]
      constructor
      · rintro ⟨rfl, rfl, h⟩; exact ⟨rfl, h⟩
      · rintro ⟨h, hrne⟩
        injection h with h1 h2
        subst h1
        subst h2
        exact ⟨rfl, rfl, hrne⟩

/-- A separator-headed pattern is an infix of `a ++ b` for a
separator-free `a` exactly when it is an infix of `b`. -/
theorem sep_headed_infix_append {q a b : List Char} (ha : sepC ∉ a) :
    (sepC :: q <:+: a ++ b) ↔ (sepC :: q <:+: b) := by
  constructor
  · rintro ⟨s, t, h⟩
    rw [List.append_assoc] at h
    rcases List.append_eq_append_iff.mp h with ⟨a', ha', hb'⟩ | ⟨c', _, hb'⟩
    · rcases a' with _ | ⟨d, a''⟩
      · simp only [List.nil_append] at hb'
        exact ⟨[], t, by simpa using hb'⟩
      · exfalso
        have hd : d = sepC := by
          have h0 := congrArg List.head? hb'
          simp only [List.cons_append, List.head?_cons] at h0
          exact (Option.some.inj h0).symm
        refine ha ?_
        rw [ha']
        refine List.mem_append.mpr (Or.inr ?_)
        rw [← hd]
        exact List.mem_cons_self _ _
    · exact ⟨c', t, by rw [hb', List.append_assoc]⟩
  · rintro ⟨s, t, rfl⟩
    exact ⟨a ++ s, t, by simp⟩

/-- Characterization of the Python substring test `f"/x/" in base` on a
rendered path: for separator-free components and a nonempty separator-free
name `x`, the block `/x/` occurs in the path string exactly when `x` is a
*non-final* component of the path. -/
theorem block_infix_render_iff :
    ∀ (comps : List String), (∀ c ∈ comps, sepC ∉ c.data) →
      ∀ x : List Char, x ≠ [] → sepC ∉ x →
      ((sepC :: (x ++ [sepC])) <:+: renderComps comps ↔
        ∃ c ∈ comps.dropLast, c.data = x) := by
  intro comps
  induction comps with
  | nil =>
    intro _ x hx _
    simp [renderComps]
  | cons c rest ih =>
    intro hclean x hx hxs
    have hc : sepC ∉ c.data := hclean c (List.mem_cons_self _ _)
    have hrest : ∀ c' ∈ rest, sepC ∉ c'.data :=
      fun c' h => hclean c' (List.mem_cons_of_mem _ h)
    rw [renderComps, List.infix_cons_iff]
    have hshape : renderComps rest = [] ∨ ∃ q, renderComps rest = sepC :: q := by
      cases rest with
      | nil => exact Or.inl rfl
      | cons r0 rs => exact Or.inr ⟨r0.data ++ renderComps rs, rfl⟩
    have hpre : (sepC :: (x ++ [sepC]) <+: sepC :: (c.data ++ renderComps rest)) ↔
        (x = c.data ∧ renderComps rest ≠ []) := by
      rw [List.cons_prefix_cons]
      rw [block_prefix_iff c.data x (renderComps rest) hx hxs hc hshape]
      simp
    rw [hpre, sep_headed_infix_append hc, ih hrest x hx hxs]
    simp only [ne_eq, renderComps_eq_nil]
    cases rest with
    | nil => simp
    | cons r0 rs =>
      simp only [List.dropLast_cons₂, List.mem_cons, ne_eq, reduceCtorEq,
        not_false_iff, and_true]
      constructor
      · rintro (rfl | ⟨c', hc', rfl⟩)
        · exact ⟨c, Or.inl rfl, rfl⟩
        · exact ⟨c', Or.inr hc', rfl⟩
      · rintro ⟨c', rfl | hc', rfl⟩
        · exact Or.inl rfl
        · exact Or.inr ⟨c', hc', rfl⟩

/-- The skip test of the collection loop, under cleanliness of the tested
path's components and the excluded names, fires exactly when an excluded
name is a non-final component of the path. -/
theorem skipBase_iff {excl : List String} {b : List String}
    (hb : ∀ c ∈ b, sepC ∉ c.data)
    (hx : ∀ x ∈ excl, x.data ≠ [] ∧ sepC ∉ x.data) :
    skipBase excl b = true ↔ ∃ x ∈ excl, ∃ c ∈ b.dropLast, c = x := by
  unfold skipBase
  rw [List.any_eq_true]
  constructor
  · rintro ⟨x, hxm, hdec⟩
    rw [decide_eq_true_iff] at hdec
    obtain ⟨hne, hsep⟩ := hx x hxm
    obtain ⟨c, hcm, hcd⟩ := (block_infix_render_iff b hb x.data hne hsep).mp hdec
    exact ⟨x, hxm, c, hcm, String.ext hcd⟩
  · rintro ⟨x, hxm, c, hcm, rfl⟩
    obtain ⟨hne, hsep⟩ := hx c hxm
    refine ⟨c, hxm, ?_⟩
    rw [decide_eq_true_iff]
    exact (block_infix_render_iff b hb c.data hne hsep).mpr ⟨c, hcm, rfl⟩

mutual
/-- Every directory path yielded by walking a clean tree from a clean base
has only separator-free components. -/
theorem walkT_clean : ∀ (t : FsTree) (base : List String),
    (∀ c ∈ base, sepC ∉ c.data) → cleanT t →
    ∀ e ∈ walkT base t, ∀ c ∈ e.1, sepC ∉ c.data
  | .node files children, base, hb, hc => by
    intro e he
    rw [walkT] at he
    rcases List.mem_cons.mp he with rfl | he
    · exact hb
    · exact walkF_clean children base hb (by rwa [cleanT] at hc) e he

/-- The forest half of `walkT_clean`. -/
theorem walkF_clean : ∀ (f : FsForest) (base : List String),
    (∀ c ∈ base, sepC ∉ c.data) → cleanF f →
    ∀ e ∈ walkF base f, ∀ c ∈ e.1, sepC ∉ c.data
  | .nil, base, _, _ => by intro e he; rw [walkF] at he; exact absurd he (by simp)
  | .cons n t rest, base, hb, hc => by
    rw [cleanF] at hc
    intro e he
    rw [walkF] at he
    rcases List.mem_append.mp he with he | he
    · refine walkT_clean t (base ++ [n]) ?_ hc.2.1 e he
      intro c hcm
      rcases List.mem_append.mp hcm with h | h
      · exact hb c h
      · rw [List.mem_singleton] at h
        subst h
        exact hc.1
    · exact walkF_clean rest base hb hc.2.2 e he
end

/-- `flatMap` respects functions that agree on the members of the list. -/
theorem flatMap_congr_mem {α β : Type} {L : List α} {f g : α → List β}
    (h : ∀ e ∈ L, f e = g e) : L.flatMap f = L.flatMap g := by
  induction L with
  | nil => rfl
  | cons a l ih =>
    rw [List.flatMap_cons, List.flatMap_cons, h a (List.mem_cons_self _ _),
      ih fun e he => h e (List.mem_cons_of_mem _ he)]

/-- C1, amended claim.  For every directory tree with separator-free names
(and separator-free root components, nonempty separator-free excluded
names), the collection loop of `scan_redundancy.py` / `scan_project.py`
yields exactly the files with the target extension whose directory path has
no excluded name as a *non-final* component — i.e. whose *parent's* path
contains no excluded ancestor.  A matching file lying directly inside an
excluded directory IS yielded, because the substring test `/x/` needs a
separator after the excluded name.  The output equals the order-independent
filter of the full file enumeration. -/
theorem collect_eq_amended (excl : List String) (root : List String)
    (t : FsTree)
    (hx : ∀ x ∈ excl, x.data ≠ [] ∧ sepC ∉ x.data)
    (hroot : ∀ c ∈ root, sepC ∉ c.data)
    (ht : cleanT t) :
    collect excl root t = amendedCollect excl root t := by
  unfold amendedCollect allEntries collect
  rw [List.filter_flatMap]
  refine (flatMap_congr_mem ?_).symm
  intro e he
  have hclean : ∀ c ∈ e.1, sepC ∉ c.data := walkT_clean t root hroot ht e he
  have hskip : skipBase excl e.1 =
      (excl.any fun x => e.1.dropLast.any fun c => c == x) := by
    rcases h1 : skipBase excl e.1 with _ | _
    · rcases h2 : (excl.any fun x => e.1.dropLast.any fun c => c == x) with _ | _
      · rfl
      · exfalso
        rw [List.any_eq_true] at h2
        obtain ⟨x, hxm, h2⟩ := h2
        rw [List.any_eq_true] at h2
        obtain ⟨c, hcm, hceq⟩ := h2
        have : skipBase excl e.1 = true :=
          (skipBase_iff hclean hx).mpr ⟨x, hxm, c, hcm, by
            exact eq_of_beq hceq⟩
        rw [h1] at this
        exact Bool.false_ne_true this
    · obtain ⟨x, hxm, c, hcm, rfl⟩ := (skipBase_iff hclean hx).mp h1
      symm
      rw [List.any_eq_true]
      refine ⟨c, hxm, ?_⟩
      rw [List.any_eq_true]
      exact ⟨c, hcm, by simp⟩
  rw [List.filter_map]
  rcases hs : skipBase excl e.1 with _ | _
  · -- not skipped: every excluded-name test on the non-final components fails
    have hfalse : (excl.any fun x => e.1.dropLast.any fun c => c == x) = false := by
      rw [← hskip]; exact hs
    have : ∀ f : String,
        (amendedKeep excl ∘ fun f => (e.1, f)) f = swiftExt f := by
      intro f
      simp only [Function.comp_apply, amendedKeep, hfalse]
      simp
    rw [List.filter_congr fun f _ => this f]
    simp
  · -- skipped: the amended filter rejects every file of this directory
    have htrue : (excl.any fun x => e.1.dropLast.any fun c => c == x) = true := by
      rw [← hskip]; exact hs
    have : ∀ f : String,
        (amendedKeep excl ∘ fun f => (e.1, f)) f = false := by
      intro f
      simp only [Function.comp_apply, amendedKeep, htrue]
      simp
    rw [List.filter_congr fun f _ => this f]
    simp

/-- Witness for `collect_eq_amended`: on a concrete clean tree with a
nested excluded directory the hypotheses hold and the theorem applies. -/
theorem collect_eq_amended_witness :
    collect exclRedundancy ["r"] gitTree =
      amendedCollect exclRedundancy ["r"] gitTree :=
  collect_eq_amended exclRedundancy ["r"] gitTree (by decide) (by decide)
    (by simp only [gitTree, cleanT, cleanF, cleanName]
        exact ⟨by decide, trivial, trivial⟩)

/-- C1, counterexample to the claim as stated: for the tree whose root
holds `.git/Foo.swift`, the collector of `scan_redundancy.py` yields the
file even though it lies directly inside the excluded directory `.git`;
the claimed collector (exclude every file with an excluded-directory
ancestor) yields nothing, so the two differ. -/
theorem collect_counterexample :
    collect exclRedundancy ["r"] gitTree = [(["r", ".git"], "Foo.swift")] ∧
    claimedCollect exclRedundancy ["r"] gitTree = [] ∧
    collect exclRedundancy ["r"] gitTree ≠
      claimedCollect exclRedundancy ["r"] gitTree := by
  refine ⟨by decide, by decide, by decide⟩

/-! ## C2 — duplicate-basename detection of `scan_redundancy.py`

`by_name` is a `defaultdict(list)` keyed by `os.path.basename(p)`;
`duplicates` keeps the groups with more than one member.  Python dicts
preserve key-insertion order, which `addToGroup` reproduces. -/

/-- `os.path.basename` of a joined path, on the component representation:
the final component. -/
def basename (p : List String) : String := p.getLastD ""

/-- One `by_name[key].append(p)` step on an insertion-ordered association
list: append `p` to the existing group of `n`, or create a new group at
the end. -/
def addToGroup (n : String) (p : List String) :
    List (String × List (List String)) → List (String × List (List String))
  | [] => [(n, [p])]
  | (m, g) :: rest =>
    if m = n then (m, g ++ [p]) :: rest else (m, g) :: addToGroup n p rest

/-- The `by_name` grouping loop of `scan_redundancy.py`. -/
def byName (ps : List (List String)) : List (String × List (List String)) :=
  ps.foldl (fun acc p => addToGroup (basename p) p acc) []

/-- `duplicates = {name: paths for name, paths in by_name.items() if
len(paths) > 1}`. -/
def duplicates (ps : List (List String)) :
    List (String × List (List String)) :=
  (byName ps).filter fun g => 1 < g.2.length

/-- `lookup` after one grouping step. -/
theorem lookup_addToGroup (n m : String) (p : List String) :
    ∀ acc, List.lookup n (addToGroup m p acc) =
      if n = m then some (((List.lookup n acc).getD []) ++ [p])
      else List.lookup n acc := by
  intro acc
  induction acc with
  | nil =>
    by_cases h : n = m
    · subst h; simp [addToGroup, List.lookup]
    · simp [addToGroup, List.lookup, h, beq_false_of_ne h]
  | cons kg rest ih =>
    obtain ⟨k, g⟩ := kg
    by_cases hkm : k = m
    · subst hkm
      by_cases hnk : n = k
      · subst hnk; simp [addToGroup, List.lookup]
      · simp [addToGroup, List.lookup, hnk, beq_false_of_ne hnk]
    · simp only [addToGroup, if_neg hkm]
      by_cases hnk : n = k
      · subst hnk
        have : n ≠ m := hkm
        simp [List.lookup, this]
      · simp [List.lookup, beq_false_of_ne hnk, ih]

/-- Combining an existing optional group with the paths contributed by the
remaining input. -/
def combineG (o : Option (List (List String))) (l : List (List String)) :
    Option (List (List String)) :=
  match o with
  | some g => some (g ++ l)
  | none => if l = [] then none else some l

/-- `lookup` after folding the whole grouping loop over an accumulator. -/
theorem lookup_foldl_group (n : String) :
    ∀ (ps : List (List String)) acc,
      List.lookup n (ps.foldl (fun acc p => addToGroup (basename p) p acc) acc) =
        combineG (List.lookup n acc)
          (ps.filter fun p => basename p == n) := by
  intro ps
  induction ps with
  | nil =>
    intro acc
    simp only [List.foldl_nil, List.filter_nil, combineG]
    cases List.lookup n acc <;> simp
  | cons p ps' ih =>
    intro acc
    rw [List.foldl_cons, ih]
    by_cases hb : basename p = n
    · have hb' : (basename p == n) = true := beq_iff_eq.mpr hb
      rw [lookup_addToGroup n (basename p) p acc, if_pos hb.symm]
      simp only [List.filter_cons, hb', if_true]
      cases hacc : List.lookup n acc with
      | none => simp [combineG]
      | some g => simp [combineG]
    · have hb' : (basename p == n) = false := beq_false_of_ne hb
      rw [lookup_addToGroup n (basename p) p acc, if_neg (Ne.symm hb)]
      simp only [List.filter_cons, hb', Bool.false_eq_true, if_false]

/-- `lookup` on the final grouping: the group of `n` is exactly the list
of collected paths whose basename is `n` (absent when there are none). -/
theorem lookup_byName (ps : List (List String)) (n : String) :
    List.lookup n (byName ps) =
      if (ps.filter fun p => basename p == n) = [] then none
      else some (ps.filter fun p => basename p == n) := by
  unfold byName
  rw [lookup_foldl_group n ps []]
  simp [combineG, List.lookup]

/-- The keys after one grouping step: unchanged when the key exists,
appended at the end when new. -/
theorem keys_addToGroup (n : String) (p : List String) :
    ∀ acc, (addToGroup n p acc).map Prod.fst =
      if (List.lookup n acc).isSome then acc.map Prod.fst
      else acc.map Prod.fst ++ [n] := by
  intro acc
  induction acc with
  | nil => simp [addToGroup, List.lookup]
  | cons kg rest ih =>
    obtain ⟨k, g⟩ := kg
    by_cases hkn : k = n
    · subst hkn; simp [addToGroup, List.lookup]
    · have : (n == k) = false := beq_false_of_ne fun h => hkn h.symm
      simp only [addToGroup, if_neg hkn, List.map_cons, List.lookup, this,
        cond_false, ih]
      by_cases hs : (List.lookup n rest).isSome <;> simp [hs]

/-- The grouping never repeats a key. -/
theorem byName_keys_nodup (ps : List (List String)) :
    ((byName ps).map Prod.fst).Nodup := by
  suffices h : ∀ acc, ((acc : List (String × List (List String))).map
      Prod.fst).Nodup →
      ((ps.foldl (fun acc p => addToGroup (basename p) p acc) acc).map
        Prod.fst).Nodup from h [] (by simp)
  induction ps with
  | nil => intro acc h; simpa using h
  | cons p ps' ih =>
    intro acc h
    rw [List.foldl_cons]
    refine ih _ ?_
    rw [keys_addToGroup]
    by_cases hs : (List.lookup (basename p) acc).isSome
    · simpa [hs] using h
    · rw [if_neg hs]
      have hnotin : basename p ∉ acc.map Prod.fst := by
        intro hmem
        obtain ⟨e, hem, he⟩ := List.mem_map.mp hmem
        have : (List.lookup (basename p) acc).isSome :=
          List.lookup_isSome_iff.mpr ⟨e, hem, by simp [he]⟩
        exact hs this
      rw [List.nodup_append]
      refine ⟨h, List.nodup_singleton _, ?_⟩
      intro x hx hx'
      rw [List.mem_singleton] at hx'
      subst hx'
      exact hnotin hx

/-- On an association list without repeated keys, membership agrees with
`lookup`. -/
theorem mem_iff_lookup_of_keys_nodup :
    ∀ (l : List (String × List (List String))), (l.map Prod.fst).Nodup →
      ∀ n g, ((n, g) ∈ l ↔ List.lookup n l = some g) := by
  intro l
  induction l with
  | nil => intro _ n g; simp [List.lookup]
  | cons kv rest ih =>
    intro hnd n g
    obtain ⟨k, v⟩ := kv
    rw [List.map_cons, List.nodup_cons] at hnd
    by_cases hnk : n = k
    · subst hnk
      simp only [List.lookup, beq_self_eq_true, cond_true, List.mem_cons]
      constructor
      · rintro (h | h)
        · rw [(Prod.mk.injEq ..).mp h |>.2]
        · exact absurd (List.mem_map.mpr ⟨(n, g), h, rfl⟩) hnd.1
      · rintro h
        exact Or.inl (by rw [Option.some.inj h])
    · simp only [List.lookup, beq_false_of_ne hnk, cond_false, List.mem_cons]
      rw [← ih hnd.2 n g]
      constructor
      · rintro (h | h)
        · exact absurd ((Prod.mk.injEq ..).mp h).1 hnk
        · exact h
      · exact Or.inr

/-- C2.  Duplicate detection groups the collected paths by basename and
reports exactly the groups with more than one member, each group holding
all occurrences (so its length is the occurrence count); on paths with
basenames `A.swift`, `B.swift`, `A.swift` the duplicate set is exactly
`A.swift` with 2 occurrences. -/
theorem duplicates_spec :
    (∀ (ps : List (List String)) (n : String) (g : List (List String)),
        (n, g) ∈ duplicates ps ↔
          g = (ps.filter fun p => basename p == n) ∧ 1 < g.length) ∧
    duplicates [["x", "A.swift"], ["x", "B.swift"], ["y", "A.swift"]] =
      [("A.swift", [["x", "A.swift"], ["y", "A.swift"]])] ∧
    (duplicates [["x", "A.swift"], ["x", "B.swift"], ["y", "A.swift"]]).map
        (fun g => (g.1, g.2.length)) = [("A.swift", 2)] := by
  refine ⟨?_, by decide, by decide⟩
  intro ps n g
  have hnd : ((byName ps).map Prod.fst).Nodup := byName_keys_nodup ps
  have hmem : ∀ g', ((n, g') ∈ byName ps ↔
      List.lookup n (byName ps) = some g') :=
    fun g' => mem_iff_lookup_of_keys_nodup (byName ps) hnd n g'
  unfold duplicates
  rw [List.mem_filter]
  rw [hmem g, lookup_byName]
  constructor
  · rintro ⟨h, hlen⟩
    by_cases hf : (ps.filter fun p => basename p == n) = []
    · rw [if_pos hf] at h; exact absurd h (by simp)
    · rw [if_neg hf] at h
      exact ⟨(Option.some.inj h).symm, by simpa using hlen⟩
  · rintro ⟨rfl, hlen⟩
    have hf : (ps.filter fun p => basename p == n) ≠ [] := by
      intro h
      rw [h] at hlen
      simp at hlen
    exact ⟨by rw [if_neg hf], by simpa using hlen⟩

/-! ## C3 — `dependency_analyzer.py` deny-list pass -/

/-- Python `s.split(sep)[0]` for a nonempty separator: the prefix of `s`
before the first occurrence of `sep` (all of `s` when absent). -/
def takeBefore (pat : List Char) : List Char → List Char
  | [] => []
  | c :: rest =>
    if pat.isPrefixOf (c :: rest) then [] else c :: takeBefore pat rest

/-- Python `str.strip()`: drop whitespace from both ends. -/
def stripWs (cs : List Char) : List Char :=
  ((cs.dropWhile Char.isWhitespace).reverse.dropWhile Char.isWhitespace).reverse

/-- `dep.split("@")[0].split(">=")[0].split("==")[0].strip()` from
`detect_outdated_patterns`. -/
def stripName (dep : String) : String :=
  ⟨stripWs (takeBefore "==".data (takeBefore ">=".data
    (takeBefore "@".data dep.data)))⟩

/-- The fixed `deprecated` table of `detect_outdated_patterns`. -/
def deprecatedTable : List (String × String) :=
  [("request",
    "Use \x27axios\x27 or native fetch instead of the deprecated \x27request\x27 package"),
   ("moment",
    "Consider replacing \x27moment\x27 with \x27date-fns\x27 or \x27dayjs\x27 for smaller bundle size"),
   ("lodash",
    "Consider using native JS methods or tree-shaken \x27lodash-es\x27 instead of \x27lodash\x27"),
   ("node-uuid",
    "Replace \x27node-uuid\x27 with the \x27uuid\x27 package")]

/-- `detect_outdated_patterns`: one warning (name and table message) per
collected dependency whose stripped identifier is a key of the table. -/
def detect_outdated_patterns (deps : List String) : List (String × String) :=
  deps.filterMap fun dep =>
    match List.lookup (stripName dep) deprecatedTable with
    | some m => some (stripName dep, m)
    | none => none

/-- The normalized shape `parse_package_json` extracts from a decoded
`package.json`: the three dependency dictionaries (key-value lists, in
declaration order). -/
structure PkgJson where
  dependencies : List (String × String)
  devDependencies : List (String × String)
  peerDependencies : List (String × String)
deriving DecidableEq

/-- `list(data.get("dependencies", {}).keys())`: the runtime dependency
names of a parsed `package.json`. -/
def runtimeDeps (p : PkgJson) : List String := p.dependencies.map Prod.fst

/-- The warning computation of `main`: `detect_outdated_patterns` of the
collected package identifiers when `--analyze` is given, otherwise none. -/
def analyzerWarnings (analyze : Bool) (allPackages : List String) :
    List (String × String) :=
  if analyze then detect_outdated_patterns allPackages else []

/-- C3.  A warning is emitted exactly for the collected identifiers whose
stripped name is a key of the deny table (in order, with multiplicity);
for a `package.json` declaring runtime dependencies `request` and `axios`,
analysis produces exactly one warning, for `request`, and none for
`axios`. -/
theorem detect_outdated_spec :
    (∀ deps : List String,
        (detect_outdated_patterns deps).map Prod.fst =
          (deps.map stripName).filter
            (fun n => (List.lookup n deprecatedTable).isSome)) ∧
    (analyzerWarnings true
        (runtimeDeps ⟨[("request", "^1.0"), ("axios", "^1.0")], [], []⟩)).map
        Prod.fst = ["request"] ∧
    analyzerWarnings false
        (runtimeDeps ⟨[("request", "^1.0"), ("axios", "^1.0")], [], []⟩)
      = [] := by
  refine ⟨?_, by decide, by decide⟩
  intro deps
  induction deps with
  | nil => rfl
  | cons d rest ih =>
    simp only [detect_outdated_patterns, List.filterMap_cons, List.map_cons,
      List.filter_cons] at ih ⊢
    cases h : List.lookup (stripName d) deprecatedTable with
    | none => simpa [h] using ih
    | some m => simpa [h] using ih

/-! ## C4 / C9 — `check_path_hygiene.py`

The git diff is an external command; its outcome is the input of the
embedding: `Except.error` for a `CalledProcessError` (the script exits 2),
`Except.ok lines` for the `--name-status` output split into lines. -/

/-- Python `s.split(sep)` for a single-character separator: always at
least one (possibly empty) field. -/
def pySplit (sep : Char) : List Char → List (List Char)
  | [] => [[]]
  | c :: rest =>
    match pySplit sep rest with
    | [] => [[]]
    | h :: t => if c = sep then [] :: h :: t else (c :: h) :: t

/-- The regular expression `^Sources/MCP[^/]+/`: the literal prefix, then
at least one non-separator character, then a separator. -/
def matchesMCP (p : List Char) : Bool :=
  "Sources/MCP".data.isPrefixOf p &&
    (match p.drop 11 with
     | [] => false
     | c :: cs => (c != sepC) && cs.contains sepC)

/-- `any(r.match(path) for r in ALLOWED_RE)` over the five allow-list
patterns of `check_path_hygiene.py` (four literal prefixes and the MCP
pattern). -/
def isAllowed (p : List Char) : Bool :=
  "Sources/App/Consolidated/".data.isPrefixOf p ||
  "Sources/Kits/".data.isPrefixOf p ||
  "Sources/SharedTypes/".data.isPrefixOf p ||
  matchesMCP p ||
  "Tests/".data.isPrefixOf p

/-- One iteration of the violation-collecting loop: split the diff line on
tabs; require status exactly `A`, a second field whose stripped path ends
in `.swift`, is not under `backup/`, and matches no allow-list pattern. -/
def lineViolation (l : String) : Option String :=
  match pySplit '\t' l.data with
  | [] => none
  | p0 :: restParts =>
    if stripWs p0 = "A".data then
      match restParts with
      | [] => none
      | p1 :: _ =>
        let path := stripWs p1
        if ".swift".data.isSuffixOf path then
          if "backup/".data.isPrefixOf path then none
          else if isAllowed path then none
          else some ⟨path⟩
        else none
    else none

/-- The `violations` list accumulated over all diff lines. -/
def violationsOf (lines : List String) : List String :=
  lines.filterMap lineViolation

/-- The whole check: exit code and printed violation list.  Exit 2 when
the git diff fails, 1 when violations exist, 0 otherwise. -/
def runHygiene (diff : Except Unit (List String)) : Nat × List String :=
  match diff with
  | .error _ => (2, [])
  | .ok lines =>
    let vs := violationsOf lines
    if vs.isEmpty then (0, vs) else (1, vs)

/-- C4.  The check exits 2 on git-diff failure, 0 exactly when no
violation exists, 1 exactly when one does; the output lists exactly the
violating paths; a new `Sources/App/Random/Foo.swift` yields exit 1 with
that path listed, a new `Tests/Foo.swift` yields exit 0. -/
theorem check_path_hygiene_spec :
    (runHygiene (Except.error ())).1 = 2 ∧
    (∀ lines, (runHygiene (Except.ok lines)).1 = 0 ↔
      violationsOf lines = []) ∧
    (∀ lines, (runHygiene (Except.ok lines)).1 = 1 ↔
      violationsOf lines ≠ []) ∧
    (∀ lines, (runHygiene (Except.ok lines)).2 = violationsOf lines) ∧
    runHygiene (Except.ok [⟨'A' :: '\t' :: "Sources/App/Random/Foo.swift".data⟩]) =
      (1, ["Sources/App/Random/Foo.swift"]) ∧
    runHygiene (Except.ok [⟨'A' :: '\t' :: "Tests/Foo.swift".data⟩]) = (0, []) := by
  refine ⟨rfl, ?_, ?_, ?_, by decide, by decide⟩
  · intro lines
    rcases h : violationsOf lines with _ | ⟨v, vs⟩ <;>
      simp [runHygiene, h]
  · intro lines
    rcases h : violationsOf lines with _ | ⟨v, vs⟩ <;>
      simp [runHygiene, h]
  · intro lines
    rcases h : violationsOf lines with _ | ⟨v, vs⟩ <;>
      simp [runHygiene, h]

/-- C9.  Every recorded violation comes from a diff line whose stripped
first field is exactly `A` and names (in its second field) a `.swift`
path not under `backup/`; lines of any other status, non-Swift paths and
`backup/` paths never contribute a violation. -/
theorem hygiene_violation_only_added_swift :
    (∀ (l : String) (v : String), lineViolation l = some v →
      (∃ p0 rest, pySplit '\t' l.data = p0 :: rest ∧ stripWs p0 = "A".data ∧
        (∃ p1 rest', rest = p1 :: rest' ∧ v.data = stripWs p1)) ∧
      ".swift".data.isSuffixOf v.data = true ∧
      "backup/".data.isPrefixOf v.data = false ∧
      isAllowed v.data = false) ∧
    (∀ (lines : List String) (v : String), v ∈ violationsOf lines →
      ∃ l ∈ lines, lineViolation l = some v) := by
  constructor
  · intro l v h
    rw [lineViolation] at h
    rcases hs : pySplit '\t' l.data with _ | ⟨p0, restParts⟩ <;> rw [hs] at h
    · exact absurd h (by simp)
    dsimp only at h
    by_cases h1 : stripWs p0 = "A".data
    · rw [if_pos h1] at h
      rcases restParts with _ | ⟨p1, rest'⟩
      · exact absurd h (by simp)
      simp only at h
      by_cases h2 : ".swift".data.isSuffixOf (stripWs p1) = true
      · rw [if_pos h2] at h
        by_cases h3 : "backup/".data.isPrefixOf (stripWs p1) = true
        · rw [if_pos h3] at h; exact absurd h (by simp)
        · rw [if_neg h3] at h
          by_cases h4 : isAllowed (stripWs p1) = true
          · rw [if_pos h4] at h; exact absurd h (by simp)
          · rw [if_neg h4] at h
            have hv : v = ⟨stripWs p1⟩ := (Option.some.inj h).symm
            subst hv
            refine ⟨⟨p0, p1 :: rest', rfl, h1, p1, rest', rfl, rfl⟩, h2, ?_, ?_⟩
            · exact Bool.eq_false_iff.mpr h3
            · exact Bool.eq_false_iff.mpr h4
      · rw [if_neg h2] at h; exact absurd h (by simp)
    · rw [if_neg h1] at h; exact absurd h (by simp)
  · intro lines v h
    obtain ⟨l, hl, hv⟩ := List.mem_filterMap.mp h
    exact ⟨l, hl, hv⟩

/-- Witness for `hygiene_violation_only_added_swift` at a concrete added
file and a concrete diff. -/
theorem hygiene_violation_witness :
    ".swift".data.isSuffixOf "Sources/App/Random/Foo.swift".data = true ∧
    ∃ l ∈ [(⟨'A' :: '\t' :: "Sources/App/Random/Foo.swift".data⟩ : String)],
      lineViolation l = some "Sources/App/Random/Foo.swift" := by
  constructor
  · exact (hygiene_violation_only_added_swift.1
      ⟨'A' :: '\t' :: "Sources/App/Random/Foo.swift".data⟩
      "Sources/App/Random/Foo.swift" (by decide)).2.1
  · exact hygiene_violation_only_added_swift.2
      [⟨'A' :: '\t' :: "Sources/App/Random/Foo.swift".data⟩]
      "Sources/App/Random/Foo.swift" (by decide)

/-! ## C5 — error handling of the four manifest parsers

`Path.read_text()` can raise `OSError` or — for a file whose bytes are not
valid text — `UnicodeDecodeError` (a `ValueError`, not an `OSError`).
`json.loads` raises `json.JSONDecodeError`.  `parse_package_json` catches
`(json.JSONDecodeError, OSError)`; the other three parsers catch only
`OSError`.  The embedding makes the read outcome the input and propagates
whatever the `except` clauses do not catch. -/

/-- An exception raised while reading a manifest file. -/
inductive ReadErr : Type where
  | osError
  | unicodeError
deriving DecidableEq

/-- The outcome of the existence check plus `read_text()`: file absent,
read raised, or decoded content available. -/
inductive ReadResult (α : Type) : Type where
  | missing
  | failed (e : ReadErr)
  | ok (a : α)
deriving DecidableEq

/-- Python `{**a, **b}`: keys of `a` in order (values overridden by `b`
where present), then the keys of `b` not in `a`, in order. -/
def dictMerge (a b : List (String × String)) : List (String × String) :=
  (a.map fun kv => (kv.1, (List.lookup kv.1 b).getD kv.2)) ++
    b.filter fun kv => !(a.map Prod.fst).contains kv.1

/-- The normalized npm dependency shape built by `parse_package_json`. -/
structure NpmDeps where
  runtime : List String
  dev : List String
  peer : List String
  versions : List (String × String)
deriving DecidableEq

/-- `parse_package_json`: missing file gives an empty result silently;
`OSError` and `json.JSONDecodeError` are caught (warning, empty result);
a `UnicodeDecodeError` raised by `read_text()` is not caught and
propagates.  The result carries (warning emitted?, parsed data or the
empty dict `{}` as `none`). -/
def parse_package_json (r : ReadResult (Except Unit PkgJson)) :
    Except ReadErr (Bool × Option NpmDeps) :=
  match r with
  | .missing => .ok (false, none)
  | .failed .osError => .ok (true, none)
  | .failed .unicodeError => .error .unicodeError
  | .ok (.error _) => .ok (true, none)
  | .ok (.ok data) =>
    .ok (false, some
      { runtime := data.dependencies.map Prod.fst
        dev := data.devDependencies.map Prod.fst
        peer := data.peerDependencies.map Prod.fst
        versions := dictMerge data.dependencies data.devDependencies })

/-- The line loop of `parse_requirements_txt`: strip each line, keep the
nonempty ones not starting with `#`.  Total — no parse failure exists. -/
def requirementsPackages (lines : List String) : List String :=
  lines.filterMap fun line =>
    let l := stripWs line.data
    if l ≠ [] ∧ ¬("#".data.isPrefixOf l = true) then some ⟨l⟩ else none

/-- `parse_requirements_txt`: only `OSError` is caught. -/
def parse_requirements_txt (r : ReadResult (List String)) :
    Except ReadErr (Bool × Option (List String)) :=
  match r with
  | .missing => .ok (false, none)
  | .failed .osError => .ok (true, none)
  | .failed .unicodeError => .error .unicodeError
  | .ok lines => .ok (false, some (requirementsPackages lines))

/-- Python `str.split()` (no argument): whitespace-separated words, no
empty fields. -/
def pyWordsAux (cur : List Char) : List Char → List (List Char)
  | [] => if cur = [] then [] else [cur.reverse]
  | c :: rest =>
    if c.isWhitespace then
      if cur = [] then pyWordsAux [] rest else cur.reverse :: pyWordsAux [] rest
    else pyWordsAux (c :: cur) rest

/-- Python `str.split()` on a character list. -/
def pyWords (cs : List Char) : List (List Char) := pyWordsAux [] cs

/-- One iteration of the `go.mod` require-block state machine of
`parse_go_mod` (state: inside a `require (` block, modules so far). -/
def goModStep (st : Bool × List (String × String)) (rawLine : String) :
    Bool × List (String × String) :=
  let line := stripWs rawLine.data
  if "require (".data.isPrefixOf line then (true, st.2)
  else if st.1 then
    if line = ")".data then (false, st.2)
    else if line ≠ [] then
      match pyWords line with
      | m :: v :: _ => (true, st.2 ++ [(⟨m⟩, ⟨v⟩)])
      | _ => (true, st.2)
    else (true, st.2)
  else if "require ".data.isPrefixOf line ∧ ¬("(".data.isSuffixOf line = true) then
    match pyWords (line.drop 8) with
    | m :: v :: _ => (false, st.2 ++ [(⟨m⟩, ⟨v⟩)])
    | _ => (false, st.2)
  else (false, st.2)

/-- The module list `parse_go_mod` extracts from decoded text.  Total. -/
def goModModules (lines : List String) : List (String × String) :=
  (lines.foldl goModStep (false, [])).2

/-- `parse_go_mod`: only `OSError` is caught. -/
def parse_go_mod (r : ReadResult (List String)) :
    Except ReadErr (Bool × Option (List (String × String))) :=
  match r with
  | .missing => .ok (false, none)
  | .failed .osError => .ok (true, none)
  | .failed .unicodeError => .error .unicodeError
  | .ok lines => .ok (false, some (goModModules lines))

/-- The line filter of `parse_package_swift`: stripped lines containing
both `.package(` and `url:`.  Total. -/
def packageSwiftPackages (lines : List String) : List String :=
  lines.filterMap fun line =>
    let l := stripWs line.data
    if (".package(".data <:+: l) ∧ ("url:".data <:+: l) then some ⟨l⟩ else none

/-- `parse_package_swift`: only `OSError` is caught. -/
def parse_package_swift (r : ReadResult (List String)) :
    Except ReadErr (Bool × Option (List String)) :=
  match r with
  | .missing => .ok (false, none)
  | .failed .osError => .ok (true, none)
  | .failed .unicodeError => .error .unicodeError
  | .ok lines => .ok (false, some (packageSwiftPackages lines))

/-- The sequential manifest-gathering phase of `main`: the four parsers
run in order, and an exception any of them does not catch aborts the whole
run. -/
def collectManifests (pj : ReadResult (Except Unit PkgJson))
    (rq gm ps : ReadResult (List String)) :
    Except ReadErr ((Bool × Option NpmDeps) × (Bool × Option (List String)) ×
      (Bool × Option (List (String × String))) × (Bool × Option (List String))) :=
  match parse_package_json pj with
  | .error e => .error e
  | .ok a =>
    match parse_requirements_txt rq with
    | .error e => .error e
    | .ok b =>
      match parse_go_mod gm with
      | .error e => .error e
      | .ok c =>
        match parse_package_swift ps with
        | .error e => .error e
        | .ok d => .ok (a, b, c, d)

/-- C5, counterexample to the claim as stated: a `requirements.txt` whose
bytes fail to decode makes `parse_requirements_txt` raise (the
`UnicodeDecodeError` is not an `OSError`), and the run aborts rather than
continuing with an empty result — likewise for every other parser. -/
theorem manifest_parser_counterexample :
    parse_requirements_txt (.failed .unicodeError) =
      .error ReadErr.unicodeError ∧
    parse_package_json (.failed .unicodeError) = .error ReadErr.unicodeError ∧
    collectManifests .missing (.failed .unicodeError) .missing .missing =
      .error ReadErr.unicodeError := by
  exact ⟨rfl, rfl, rfl⟩

/-- C5, amended.  Each parser absorbs a missing file (empty result, no
warning), an `OSError` and — for `package.json` — a JSON parse failure
(empty result, warning) without raising, and the run continues whenever no
parser hits a decode failure; but each parser raises exactly on a
`UnicodeDecodeError` from reading, which aborts the run. -/
theorem manifest_parser_error_handling :
    (∀ r, (∃ e, parse_package_json r = .error e) ↔ r = .failed .unicodeError) ∧
    (∀ r, (∃ e, parse_requirements_txt r = .error e) ↔
      r = .failed .unicodeError) ∧
    (∀ r, (∃ e, parse_go_mod r = .error e) ↔ r = .failed .unicodeError) ∧
    (∀ r, (∃ e, parse_package_swift r = .error e) ↔
      r = .failed .unicodeError) ∧
    (parse_package_json (.failed .osError) = .ok (true, none) ∧
      parse_package_json (.ok (.error ())) = .ok (true, none) ∧
      parse_package_json .missing = .ok (false, none) ∧
      parse_requirements_txt (.failed .osError) = .ok (true, none) ∧
      parse_go_mod (.failed .osError) = .ok (true, none) ∧
      parse_package_swift (.failed .osError) = .ok (true, none)) ∧
    (∀ pj rq gm ps, pj ≠ .failed .unicodeError → rq ≠ .failed .unicodeError →
      gm ≠ .failed .unicodeError → ps ≠ .failed .unicodeError →
      ∃ out, collectManifests pj rq gm ps = .ok out) := by
  have hpj : ∀ pj, pj ≠ ReadResult.failed ReadErr.unicodeError →
      ∃ v, parse_package_json pj = .ok v := by
    rintro (_ | (_ | _) | (_ | _)) h
    · exact ⟨_, rfl⟩
    · exact ⟨_, rfl⟩
    · exact absurd rfl h
    · exact ⟨_, rfl⟩
    · exact ⟨_, rfl⟩
  have hplain : ∀ (r : ReadResult (List String)),
      r ≠ ReadResult.failed ReadErr.unicodeError →
      ((∃ v, parse_requirements_txt r = .ok v) ∧
       (∃ v, parse_go_mod r = .ok v) ∧
       (∃ v, parse_package_swift r = .ok v)) := by
    rintro (_ | (_ | _) | ls) h
    · exact ⟨⟨_, rfl⟩, ⟨_, rfl⟩, ⟨_, rfl⟩⟩
    · exact ⟨⟨_, rfl⟩, ⟨_, rfl⟩, ⟨_, rfl⟩⟩
    · exact absurd rfl h
    · exact ⟨⟨_, rfl⟩, ⟨_, rfl⟩, ⟨_, rfl⟩⟩
  refine ⟨?_, ?_, ?_, ?_, ⟨rfl, rfl, rfl, rfl, rfl, rfl⟩, ?_⟩
  · rintro (_ | (_ | _) | (_ | _)) <;>
      simp [parse_package_json]
  · rintro (_ | (_ | _) | ls) <;> simp [parse_requirements_txt]
  · rintro (_ | (_ | _) | ls) <;> simp [parse_go_mod]
  · rintro (_ | (_ | _) | ls) <;> simp [parse_package_swift]
  · intro pj rq gm ps h1 h2 h3 h4
    obtain ⟨a, ha⟩ := hpj pj h1
    obtain ⟨⟨b, hb⟩, ⟨c, hc⟩, -⟩ := hplain rq h2
    obtain ⟨-, ⟨c', hc'⟩, -⟩ := hplain gm h3
    obtain ⟨-, -, d, hd⟩ := hplain ps h4
    refine ⟨(a, b, c', d), ?_⟩
    rw [collectManifests, ha, hb, hc', hd]

/-- Witness for `manifest_parser_error_handling`: with all four manifests
absent the run completes. -/
theorem manifest_parser_error_handling_witness :
    ∃ out, collectManifests .missing .missing .missing .missing = .ok out :=
  manifest_parser_error_handling.2.2.2.2.2 .missing .missing .missing .missing
    (fun h => nomatch h) (fun h => nomatch h) (fun h => nomatch h)
    (fun h => nomatch h)

/-! ## C6 — `project_architect.py` on an empty project directory

The existence checks see the project as a list of (relative path, content)
pairs; `compute_metrics` walks the same directory as an `FsTree`.  For the
empty directory both are empty. -/

/-- `(project_path / p).exists()` on the path-list model. -/
def fsExists (fs : List (String × String)) (p : String) : Bool :=
  (List.lookup p fs).isSome

/-- `read_text()` of an existing file in the model. -/
def fsRead (fs : List (String × String)) (p : String) : String :=
  (List.lookup p fs).getD ""

/-- The fixed checklist of `check_project_structure`. -/
def structureChecks : List (String × String) :=
  [("README.md", "Add a README.md with project overview and setup instructions"),
   (".gitignore", "Add a .gitignore to exclude build artifacts and secrets"),
   (".env.example", "Add a .env.example to document required environment variables"),
   ("CONTRIBUTING.md", "Add a CONTRIBUTING.md to guide contributors"),
   ("CHANGELOG.md", "Add a CHANGELOG.md to track version history")]

/-- `check_project_structure`: one `structure` recommendation per missing
checklist file. -/
def check_project_structure (fs : List (String × String)) :
    List (String × String) :=
  structureChecks.filterMap fun c =>
    if fsExists fs c.1 then none else some ("structure", c.2)

/-- The candidate test directories of `check_code_quality`. -/
def testDirs : List String := ["tests", "test", "__tests__", "spec"]

/-- The candidate linter configuration files of `check_code_quality`. -/
def lintConfigs : List String :=
  [".eslintrc", ".eslintrc.js", ".eslintrc.json", ".eslintrc.yml",
   ".pylintrc", "pyproject.toml", ".swiftlint.yml", ".golangci.yml"]

/-- `check_code_quality`: recommendations for a missing test directory and
missing linter configuration. -/
def check_code_quality (fs : List (String × String)) :
    List (String × String) :=
  (if testDirs.any (fsExists fs) then []
   else [("quality", "Add a tests/ directory with unit and integration tests")]) ++
  (if lintConfigs.any (fsExists fs) then []
   else [("quality", "Add linter configuration (ESLint, Pylint, SwiftLint, etc.)")])

/-- `check_security`: a recommendation for a missing SECURITY.md and one
per tracked env file that exists but is not covered by `.gitignore`. -/
def check_security (fs : List (String × String)) : List (String × String) :=
  (if (["SECURITY.md", ".github/SECURITY.md"] : List String).any (fsExists fs)
   then []
   else [("security", "Add a SECURITY.md to document vulnerability reporting process")]) ++
  ([".env", ".env.local", ".env.development"] : List String).flatMap fun envFile =>
    if fsExists fs envFile then
      if fsExists fs ".gitignore" then
        let content := fsRead fs ".gitignore"
        if ¬(envFile.data <:+: content.data) ∧ ¬(".env".data <:+: content.data)
        then [("security",
          "Ensure " ++ envFile ++ " is listed in .gitignore to avoid leaking secrets")]
        else []
      else []
    else []

/-- `check_ci_cd`: a recommendation when no CI/CD configuration path
exists. -/
def check_ci_cd (fs : List (String × String)) : List (String × String) :=
  if ([".github/workflows", ".circleci", ".gitlab-ci.yml", "Jenkinsfile",
      ".travis.yml"] : List String).any (fsExists fs)
  then []
  else [("devops", "Add CI/CD configuration (GitHub Actions, CircleCI, etc.)")]

/-- The directory-pruning predicate of `compute_metrics`:
`not d.startswith(".") and d not in (node_modules, .git, build, dist)`. -/
def keepDir (n : String) : Bool :=
  !(".".data.isPrefixOf n.data) &&
    !((["node_modules", ".git", "build", "dist"] : List String).contains n)

mutual
/-- `dirs[:] = [d for d in dirs if ...]` applied recursively: the tree
`compute_metrics` actually walks. -/
def pruneT : FsTree → FsTree
  | .node files ch => .node files (pruneF ch)

/-- The forest half of `pruneT`. -/
def pruneF : FsForest → FsForest
  | .nil => .nil
  | .cons n t rest =>
    if keepDir n then .cons n (pruneT t) (pruneF rest) else pruneF rest
end

/-- The metrics record of `compute_metrics`. -/
structure Metrics where
  total_files : Nat
  source_files : Nat
  test_files : Nat
  doc_files : Nat
deriving DecidableEq

/-- `PurePath.suffix` (CPython): the part of the name from its last dot,
provided that dot is neither the first nor the last character. -/
def pySuffix (name : List Char) : List Char :=
  match (name.enum.filter fun p => p.2 == '.').getLast? with
  | none => []
  | some (i, _) => if 0 < i ∧ i < name.length - 1 then name.drop i else []

/-- `str.lower()` on a character list. -/
def pyLower (cs : List Char) : List Char := cs.map Char.toLower

/-- The source-file extensions of `compute_metrics`. -/
def sourceExts : List (List Char) :=
  [".py".data, ".js".data, ".ts".data, ".swift".data, ".kt".data,
   ".go".data, ".dart".data]

/-- The documentation extensions of `compute_metrics`. -/
def docExts : List (List Char) := [".md".data, ".rst".data, ".txt".data]

/-- The test-name keywords of `compute_metrics`. -/
def testKeywords : List (List Char) :=
  ["test".data, "spec".data, "__test__".data]

/-- One file's contribution to the metrics, as in the inner loop of
`compute_metrics`. -/
def countFile (m : Metrics) (fname : String) : Metrics :=
  let ext := pyLower (pySuffix fname.data)
  let m1 : Metrics := { m with total_files := m.total_files + 1 }
  let m2 : Metrics :=
    if sourceExts.contains ext then
      { m1 with
        source_files := m1.source_files + 1
        test_files := m1.test_files +
          (if testKeywords.any (fun kw => decide (kw <:+: pyLower fname.data))
           then 1 else 0) }
    else m1
  if docExts.contains ext then { m2 with doc_files := m2.doc_files + 1 } else m2

/-- `compute_metrics`: walk the pruned tree and count every file. -/
def compute_metrics (t : FsTree) : Metrics :=
  ((walkT [] (pruneT t)).flatMap Prod.snd).foldl countFile ⟨0, 0, 0, 0⟩

/-- `main` of `project_architect.py`: concatenated recommendations and the
exit status (1 exactly when some recommendation exists). -/
def architectRecommendations (fs : List (String × String)) :
    List (String × String) :=
  check_project_structure fs ++ check_code_quality fs ++ check_security fs ++
    check_ci_cd fs

/-- The process exit status of `project_architect.py`. -/
def architectExit (fs : List (String × String)) : Nat :=
  if architectRecommendations fs = [] then 0 else 1

/-- C6.  On an empty project directory the metrics report zero total
files, the recommendations include the missing-README, missing-.gitignore,
missing-tests, missing-linter and missing-CI/CD entries, and the process
exits with status 1. -/
theorem project_architect_empty_dir :
    (compute_metrics (.node [] .nil)).total_files = 0 ∧
    ("structure", "Add a README.md with project overview and setup instructions")
      ∈ architectRecommendations [] ∧
    ("structure", "Add a .gitignore to exclude build artifacts and secrets")
      ∈ architectRecommendations [] ∧
    ("quality", "Add a tests/ directory with unit and integration tests")
      ∈ architectRecommendations [] ∧
    ("quality", "Add linter configuration (ESLint, Pylint, SwiftLint, etc.)")
      ∈ architectRecommendations [] ∧
    ("devops", "Add CI/CD configuration (GitHub Actions, CircleCI, etc.)")
      ∈ architectRecommendations [] ∧
    architectExit [] = 1 := by
  refine ⟨rfl, ?_, ?_, ?_, ?_, ?_, rfl⟩ <;> decide

/-! ## C8 — output file naming of `architecture_diagram_generator.py`

`main` computes `Path(args.output).with_suffix(f".{ext}")`; `--output` is
"Output file name without extension", modelled as the name component. -/

/-- The three diagram formats of `--format`. -/
inductive DiagramFormat : Type where
  | mermaid
  | plantuml
  | json
deriving DecidableEq

/-- The extension `main` selects per format. -/
def extFor : DiagramFormat → String
  | .mermaid => "md"
  | .plantuml => "puml"
  | .json => "json"

/-- `PurePath.with_suffix` (CPython): replace the name's existing suffix
with the new one, appending when the name has no suffix; an empty name
raises `ValueError`, modelled as `none`. -/
def pyWithSuffix (name suffix : List Char) : Option (List Char) :=
  if name = [] then none
  else
    let old := pySuffix name
    if old = [] then some (name ++ suffix)
    else some (name.take (name.length - old.length) ++ suffix)

/-- The file name the diagram is written to:
`Path(output).with_suffix("." + ext)`. -/
def outputFileName (o : String) (f : DiagramFormat) : Option String :=
  (pyWithSuffix o.data ('.' :: (extFor f).data)).map fun cs => ⟨cs⟩

/-- C8, counterexample to the claim as stated: for the output name
`out.txt` and format `mermaid`, the diagram is written to `out.md` —
`with_suffix` replaced the existing suffix — not to `out.txt.md` as the
claim's `<output>.<ext>` requires. -/
theorem diagram_output_name_counterexample :
    outputFileName "out.txt" .mermaid = some "out.md" ∧
    outputFileName "out.txt" .mermaid ≠ some "out.txt.md" := by
  exact ⟨by decide, by decide⟩

/-- C8, amended.  The diagram is written to `Path(O).with_suffix`, which
appends `.<ext>` exactly when `O` has no suffix of its own (in particular
for the extensionless names the `--output` option documents); when `O`
already has a suffix, that suffix is replaced, so the result is always
some stem followed by `.<ext>`. -/
theorem diagram_output_name :
    (∀ (o : String) (f : DiagramFormat), o.data ≠ [] → pySuffix o.data = [] →
      outputFileName o f = some ⟨o.data ++ '.' :: (extFor f).data⟩) ∧
    (∀ (o : String) (f : DiagramFormat), o.data ≠ [] →
      ∃ stem, outputFileName o f = some ⟨stem ++ '.' :: (extFor f).data⟩) := by
  constructor
  · intro o f ho hs
    rw [outputFileName, pyWithSuffix, if_neg ho]
    simp [hs]
  · intro o f ho
    rw [outputFileName, pyWithSuffix, if_neg ho]
    by_cases hs : pySuffix o.data = []
    · exact ⟨o.data, by simp [hs]⟩
    · exact ⟨o.data.take (o.data.length - (pySuffix o.data).length),
        by simp [hs]⟩

/-- Witness for `diagram_output_name` at the default output name. -/
theorem diagram_output_name_witness :
    outputFileName "architecture_diagram" .mermaid =
      some ⟨"architecture_diagram".data ++ '.' :: "md".data⟩ :=
  diagram_output_name.1 "architecture_diagram" .mermaid (by decide) (by decide)

/-! ## C7 / C10 — `fix_duplicates.py`

The pbxproj text is modelled as its list of newline-terminated lines (in
the pbxproj grammar every build-file entry occupies one line of its own,
beginning with four tabs).  `content.find` of the section markers becomes
a line search; the `findall` entry pattern
`\t\t\t\t([A-F0-9]+) /\* (.+?\.swift) in Sources \*/,` is matched against
each section line from its start (the capture may be followed by further
text, since the pattern is not anchored at the line end); the removal
pattern `\t\t\t\t{id} /\* .+? in Sources \*/,\n` must reach the newline,
i.e. match a whole line, and `re.sub` applies it to the entire document.
The one approximation: when `');'` is missing, `content[files_start:-1]`
(everything up to the last character) is modelled as all remaining
lines. -/

/-- Four tabs, the indentation of a build-file entry line. -/
def tabs4 : List Char := ['\t', '\t', '\t', '\t']

/-- The regex class `[A-F0-9]`. -/
def isPbxHex (c : Char) : Bool :=
  ('0' ≤ c && c ≤ '9') || ('A' ≤ c && c ≤ 'F')

/-- The literal ` /* ` between the identifier and the file name. -/
def entryMid : List Char := " /* ".data

/-- The literal ` in Sources */,` closing an entry. -/
def entryTail : List Char := " in Sources */,".data

/-- The non-greedy capture `(.+?\.swift)` followed by the literal tail:
scan left to right and stop at the first position where the text so far
is at least one character plus `.swift` and the tail follows. -/
def findEntryName (acc : List Char) : List Char → Option (List Char)
  | [] => none
  | c :: rest =>
    if ".swift".data.isSuffixOf (acc ++ [c]) && 7 ≤ (acc ++ [c]).length &&
        entryTail.isPrefixOf rest then some (acc ++ [c])
    else findEntryName (acc ++ [c]) rest

/-- The `findall` entry pattern, matched at the start of one line:
four tabs, a nonempty greedy run of `[A-F0-9]`, ` /* `, the non-greedy
name capture, ` in Sources */,`. -/
def parseEntryLine (l : String) : Option (String × String) :=
  let cs := l.data
  if tabs4.isPrefixOf cs then
    let rest := cs.drop 4
    let idPart := rest.takeWhile isPbxHex
    let rest2 := rest.dropWhile isPbxHex
    if idPart ≠ [] ∧ entryMid.isPrefixOf rest2 = true then
      match findEntryName [] (rest2.drop 4) with
      | some name => some (⟨idPart⟩, ⟨name⟩)
      | none => none
    else none
  else none

/-- Python `sub in s` on strings. -/
def containsStr (needle hay : String) : Bool :=
  decide (needle.data <:+: hay.data)

/-- The main-app Sources build-phase marker the script searches for. -/
def pbxMarker : String := "DD9B493FC570EE3F155BC4F2 /* Sources */ = \x7b"

/-- The slice `content[files_start:files_end]` at line granularity: the
lines strictly between the `files = (` line (searched from the marker
line) and the next `);` line. -/
def sectionLines (doc : List String) : List String :=
  match doc.findIdx? (fun l => containsStr pbxMarker l) with
  | none => []
  | some mi =>
    let rest := doc.drop mi
    match rest.findIdx? (fun l => containsStr "files = (" l) with
    | none => []
    | some fi =>
      let after := rest.drop (fi + 1)
      match after.findIdx? (fun l => containsStr ");" l) with
      | none => after
      | some ei => after.take ei

/-- `re.findall(file_pattern, sources_section)`: the `(id, name)` matches
of the located section. -/
def pbxMatches (doc : List String) : List (String × String) :=
  (sectionLines doc).filterMap parseEntryLine

/-- The `files_to_keep` / `files_to_remove` loop, carried out with the set
of already-seen file names: the identifier of every entry whose name was
seen before is queued for removal, in encounter order. -/
def filesToRemoveAux (seen : List String) :
    List (String × String) → List String
  | [] => []
  | e :: rest =>
    if e.2 ∈ seen then e.1 :: filesToRemoveAux seen rest
    else filesToRemoveAux (e.2 :: seen) rest

/-- The `files_to_remove` list of the script. -/
def filesToRemove (ms : List (String × String)) : List String :=
  filesToRemoveAux [] ms

/-- The evolution of the seen-name set over a processed prefix. -/
def seenAfter (seen : List String) : List (String × String) → List String
  | [] => seen
  | e :: rest =>
    if e.2 ∈ seen then seenAfter seen rest else seenAfter (e.2 :: seen) rest

/-- The removal pattern `\t\t\t\t{id} /\* .+? in Sources \*/,\n` against
one line: the trailing newline anchors the match at the line end, so a
line is removed exactly when it is four tabs, the identifier, ` /* `, at
least one character, and the closing literal. -/
def removalMatches (fid : String) (l : String) : Bool :=
  let cs := l.data
  let pre := tabs4 ++ fid.data ++ entryMid
  pre.isPrefixOf cs && entryTail.isSuffixOf (cs.drop pre.length) &&
    decide (pre.length + entryTail.length < cs.length)

/-- The whole script run on the document: abort (leaving the file
untouched) when the marker is missing, otherwise apply the `re.sub`
removal loop for each queued identifier to the entire document. -/
def fixRun (doc : List String) : List String :=
  match doc.findIdx? (fun l => containsStr pbxMarker l) with
  | none => doc
  | some _ =>
    (filesToRemove (pbxMatches doc)).foldl
      (fun d fid => d.filter fun l => !removalMatches fid l) doc

/-- A canonical build-file entry line. -/
def entryLine (fid name : String) : String :=
  ⟨tabs4 ++ fid.data ++ entryMid ++ name.data ++ entryTail⟩

/-- The `files = (` line of the examples. -/
def filesLine : String := "\t\t\tfiles = ("

/-- The `);` line closing the file list of the examples. -/
def closeLine : String := "\t\t\t);"

/-- A document whose section has the same entry twice under the *same*
identifier. -/
def dupIdDoc : List String :=
  [pbxMarker, filesLine, entryLine "AAAA1111" "Foo.swift",
   entryLine "AAAA1111" "Foo.swift", closeLine]

/-- An already-deduplicated document: distinct names, distinct ids. -/
def dedupedDoc : List String :=
  [pbxMarker, filesLine, entryLine "AAAA1111" "Foo.swift",
   entryLine "BBBB2222" "Bar.swift", closeLine]

/-- A document with one duplicated name under two distinct identifiers. -/
def dupNameDoc : List String :=
  [pbxMarker, filesLine, entryLine "AAAA1111" "Foo.swift",
   entryLine "BBBB2222" "Foo.swift", closeLine]

/-- `dupNameDoc` with one extra line *after* the section that matches the
removal pattern of the second identifier. -/
def outsideDoc : List String :=
  [pbxMarker, filesLine, entryLine "AAAA1111" "Foo.swift",
   entryLine "BBBB2222" "Foo.swift", closeLine,
   entryLine "BBBB2222" "Other.swift"]

/-- Folding the per-identifier `re.sub` removals equals one pass filtering
out every line matched by some queued identifier. -/
theorem foldl_filter_removal (ids : List String) :
    ∀ doc : List String,
      ids.foldl (fun d fid => d.filter fun l => !removalMatches fid l) doc =
        doc.filter fun l => !(ids.any fun fid => removalMatches fid l) := by
  induction ids with
  | nil => intro doc; simp
  | cons i ids ih =>
    intro doc
    rw [List.foldl_cons, ih, List.filter_filter]
    refine List.filter_congr fun l _ => ?_
    cases hm : removalMatches i l <;>
      cases ha : ids.any (fun fid => removalMatches fid l) <;>
        simp [List.any_cons, hm, ha]

/-- With pairwise-distinct names none of which was seen, nothing is queued
for removal. -/
theorem filesToRemoveAux_eq_nil :
    ∀ (ms : List (String × String)) (seen : List String),
      (ms.map Prod.snd).Nodup → (∀ e ∈ ms, e.2 ∉ seen) →
      filesToRemoveAux seen ms = [] := by
  intro ms
  induction ms with
  | nil => intro seen _ _; rfl
  | cons e rest ih =>
    intro seen hnd hseen
    rw [List.map_cons, List.nodup_cons] at hnd
    simp only [filesToRemoveAux, if_neg (hseen e (List.mem_cons_self _ _))]
    refine ih (e.2 :: seen) hnd.2 ?_
    intro e' he' hmem
    rcases List.mem_cons.mp hmem with h | h
    · exact hnd.1 (h ▸ List.mem_map.mpr ⟨e', he', rfl⟩)
    · exact hseen e' (List.mem_cons_of_mem _ he') h

/-- The removal queue splits along a split of the match list, the second
half running with the names seen in the first. -/
theorem filesToRemoveAux_append :
    ∀ (pre post : List (String × String)) (seen : List String),
      filesToRemoveAux seen (pre ++ post) =
        filesToRemoveAux seen pre ++
          filesToRemoveAux (seenAfter seen pre) post := by
  intro pre
  induction pre with
  | nil => intro post seen; rfl
  | cons e rest ih =>
    intro post seen
    by_cases h : e.2 ∈ seen
    · simp only [List.cons_append, filesToRemoveAux, seenAfter, if_pos h]
      exact congrArg (fun x => e.1 :: x) (ih post seen)
    · simp only [List.cons_append, filesToRemoveAux, seenAfter, if_neg h]
      exact ih post (e.2 :: seen)

/-- Membership in the evolved seen-set. -/
theorem mem_seenAfter :
    ∀ (pre : List (String × String)) (seen : List String) (n : String),
      n ∈ seenAfter seen pre ↔ n ∈ seen ∨ n ∈ pre.map Prod.snd := by
  intro pre
  induction pre with
  | nil => intro seen n; simp [seenAfter]
  | cons e rest ih =>
    intro seen n
    by_cases h : e.2 ∈ seen
    · simp only [seenAfter, if_pos h, ih, List.map_cons, List.mem_cons]
      constructor
      · rintro (hs | hr)
        · exact Or.inl hs
        · exact Or.inr (Or.inr hr)
      · rintro (hs | rfl | hr)
        · exact Or.inl hs
        · exact Or.inl h
        · exact Or.inr hr
    · simp only [seenAfter, if_neg h, ih, List.mem_cons, List.map_cons]
      constructor
      · rintro ((rfl | hs) | hr)
        · exact Or.inr (Or.inl rfl)
        · exact Or.inl hs
        · exact Or.inr (Or.inr hr)
      · rintro (hs | rfl | hr)
        · exact Or.inl (Or.inr hs)
        · exact Or.inl (Or.inl rfl)
        · exact Or.inr hr

/-- Every queued identifier is the identifier of some matched entry. -/
theorem filesToRemoveAux_subset_ids :
    ∀ (ms : List (String × String)) (seen : List String) (i : String),
      i ∈ filesToRemoveAux seen ms → i ∈ ms.map Prod.fst := by
  intro ms
  induction ms with
  | nil => intro seen i h; exact absurd h (by simp [filesToRemoveAux])
  | cons e rest ih =>
    intro seen i h
    rw [List.map_cons, List.mem_cons]
    by_cases hm : e.2 ∈ seen
    · simp only [filesToRemoveAux, if_pos hm] at h
      rcases List.mem_cons.mp h with rfl | h'
      · exact Or.inl rfl
      · exact Or.inr (ih seen i h')
    · simp only [filesToRemoveAux, if_neg hm] at h
      exact Or.inr (ih _ i h)

/-- The name captured by the non-greedy scan is long enough to be
nonempty. -/
theorem findEntryName_length :
    ∀ (cs acc name : List Char), findEntryName acc cs = some name →
      7 ≤ name.length := by
  intro cs
  induction cs with
  | nil => intro acc name h; exact absurd h (by simp [findEntryName])
  | cons c rest ih =>
    intro acc name h
    rw [findEntryName] at h
    by_cases hc : (".swift".data.isSuffixOf (acc ++ [c]) &&
        decide (7 ≤ (acc ++ [c]).length) && entryTail.isPrefixOf rest) = true
    · rw [if_pos hc] at h
      obtain rfl := Option.some.inj h
      simp only [Bool.and_eq_true, decide_eq_true_eq] at hc
      exact hc.1.2
    · rw [if_neg hc] at h
      exact ih (acc ++ [c]) name h

/-- A successful entry match has a nonempty all-hex identifier and a
nonempty name. -/
theorem parseEntryLine_sound {l i n : String}
    (h : parseEntryLine l = some (i, n)) :
    i.data ≠ [] ∧ (∀ c ∈ i.data, isPbxHex c = true) ∧ n.data ≠ [] := by
  rw [parseEntryLine] at h
  by_cases h1 : tabs4.isPrefixOf l.data = true
  · rw [if_pos h1] at h
    dsimp only at h
    by_cases h2 : (l.data.drop 4).takeWhile isPbxHex ≠ [] ∧
        entryMid.isPrefixOf ((l.data.drop 4).dropWhile isPbxHex) = true
    · rw [if_pos h2] at h
      cases hfe : findEntryName [] (((l.data.drop 4).dropWhile isPbxHex).drop 4) with
      | none => rw [hfe] at h; exact absurd h (by simp)
      | some name =>
        rw [hfe] at h
        obtain ⟨hi, hn⟩ := Prod.mk.injEq .. ▸ Option.some.inj h
        constructor
        · rw [← hi]; exact h2.1
        · constructor
          · intro c hc
            rw [← hi] at hc
            exact List.mem_takeWhile_imp hc
          · rw [← hn]
            have h7 := findEntryName_length _ [] name hfe
            intro hnil
            have hnil' : name = [] := hnil
            rw [hnil'] at h7
            simp at h7
    · rw [if_neg h2] at h
      exact absurd h (by simp)
  · rw [if_neg h1] at h
    exact absurd h (by simp)

/-- Two runs of `[A-F0-9]` characters each followed by a space align: if
one (with its space) is a prefix of the other (with its space), the runs
are equal. -/
theorem hex_run_delim :
    ∀ (a : List Char), (∀ c ∈ a, isPbxHex c = true) →
      ∀ (b r s : List Char), (∀ c ∈ b, isPbxHex c = true) →
      (a ++ ' ' :: r) <+: (b ++ ' ' :: s) → a = b := by
  intro a
  induction a with
  | nil =>
    intro _ b r s hb h
    rcases b with _ | ⟨d, b'⟩
    · rfl
    · exfalso
      simp only [List.nil_append, List.cons_append, List.cons_prefix_cons] at h
      have hsp : isPbxHex ' ' = true := by
        rw [h.1]
        exact hb d (List.mem_cons_self _ _)
      exact absurd hsp (by decide)
  | cons c a' ih =>
    intro ha b r s hb h
    rcases b with _ | ⟨d, b'⟩
    · exfalso
      simp only [List.cons_append, List.nil_append, List.cons_prefix_cons] at h
      have hsp : isPbxHex ' ' = true := by
        rw [← h.1]
        exact ha c (List.mem_cons_self _ _)
      exact absurd hsp (by decide)
    · simp only [List.cons_append, List.cons_prefix_cons] at h
      obtain ⟨rfl, h2⟩ := h
      have := ih (fun x hx => ha x (List.mem_cons_of_mem _ hx)) b' r s
        (fun x hx => hb x (List.mem_cons_of_mem _ hx)) h2
      rw [this]

/-- The removal pattern of identifier `fid` matches the canonical entry
line of identifier `i` exactly when the identifiers coincide. -/
theorem removalMatches_entryLine {fid i n : String}
    (hfid : fid.data ≠ [] ∧ ∀ c ∈ fid.data, isPbxHex c = true)
    (hi : i.data ≠ [] ∧ ∀ c ∈ i.data, isPbxHex c = true)
    (hn : n.data ≠ []) :
    (removalMatches fid (entryLine i n) = true ↔ fid = i) := by
  constructor
  · intro h
    rw [removalMatches] at h
    simp only [Bool.and_eq_true, List.isPrefixOf_iff_prefix] at h
    have hp := h.1.1
    rw [show (entryLine i n).data =
        tabs4 ++ (i.data ++ (entryMid ++ (n.data ++ entryTail))) from by
          simp [entryLine, List.append_assoc]] at hp
    rw [show tabs4 ++ fid.data ++ entryMid =
        tabs4 ++ (fid.data ++ entryMid) from by simp [List.append_assoc]] at hp
    rw [List.prefix_append_right_inj] at hp
    have hmid : entryMid = ' ' :: "/* ".data := rfl
    rw [hmid] at hp
    rw [show i.data ++ (' ' :: "/* ".data ++ (n.data ++ entryTail)) =
        i.data ++ ' ' :: ("/* ".data ++ (n.data ++ entryTail)) from by simp] at hp
    exact String.ext (hex_run_delim fid.data hfid.2 i.data "/* ".data
      ("/* ".data ++ (n.data ++ entryTail)) hi.2 hp)
  · rintro rfl
    rw [removalMatches]
    simp only [Bool.and_eq_true, List.isPrefixOf_iff_prefix,
      List.isSuffixOf_iff_suffix, decide_eq_true_eq]
    have hdecomp : (entryLine fid n).data =
        (tabs4 ++ fid.data ++ entryMid) ++ (n.data ++ entryTail) := by
      simp [entryLine, List.append_assoc]
    refine ⟨⟨?_, ?_⟩, ?_⟩
    · rw [hdecomp]; exact List.prefix_append _ _
    · rw [hdecomp, List.drop_left]
      exact List.suffix_append _ _
    · rw [hdecomp]
      simp only [List.length_append]
      have : 1 ≤ n.data.length := by
        cases hd : n.data with
        | nil => exact absurd hd hn
        | cons x xs => simp
      omega

/-- A nonempty match list means the marker line was found. -/
theorem marker_found_of_matches_ne_nil {doc : List String}
    (h : pbxMatches doc ≠ []) :
    (doc.findIdx? fun l => containsStr pbxMarker l).isSome := by
  rw [pbxMatches, sectionLines] at h
  cases hidx : doc.findIdx? (fun l => containsStr pbxMarker l) with
  | none => rw [hidx] at h; exact absurd rfl h
  | some mi => simp

/-- When the marker is found, the run is the single global filter. -/
theorem fixRun_eq_filter {doc : List String}
    (h : (doc.findIdx? fun l => containsStr pbxMarker l).isSome) :
    fixRun doc = doc.filter fun l =>
      !((filesToRemove (pbxMatches doc)).any fun fid =>
        removalMatches fid l) := by
  rw [fixRun]
  cases hidx : doc.findIdx? (fun l => containsStr pbxMarker l) with
  | none => rw [hidx] at h; exact absurd h (by simp)
  | some mi => exact foldl_filter_removal _ doc

/-- With pairwise-distinct identifiers, an entry's identifier is queued
for removal exactly when its name occurred earlier in the match list. -/
theorem mem_filesToRemove_iff {pre post : List (String × String)}
    {i n : String}
    (hnd : ((pre ++ (i, n) :: post).map Prod.fst).Nodup) :
    (i ∈ filesToRemove (pre ++ (i, n) :: post) ↔ n ∈ pre.map Prod.snd) := by
  rw [List.map_append, List.nodup_append] at hnd
  obtain ⟨hndpre, hndpost, hdisj⟩ := hnd
  rw [List.map_cons, List.nodup_cons] at hndpost
  have hipre : i ∉ pre.map Prod.fst := fun hm => hdisj hm (by simp)
  have hipost : i ∉ post.map Prod.fst := hndpost.1
  rw [filesToRemove, filesToRemoveAux_append]
  have hS : n ∈ seenAfter [] pre ↔ n ∈ pre.map Prod.snd := by
    rw [mem_seenAfter]; simp
  constructor
  · intro hmem
    by_cases hn : n ∈ seenAfter [] pre
    · exact hS.mp hn
    · exfalso
      rcases List.mem_append.mp hmem with hm | hm
      · exact hipre (filesToRemoveAux_subset_ids pre [] i hm)
      · simp only [filesToRemoveAux, if_neg hn] at hm
        exact hipost (filesToRemoveAux_subset_ids post _ i hm)
  · intro hnpre
    refine List.mem_append.mpr (Or.inr ?_)
    simp only [filesToRemoveAux, if_pos (hS.mpr hnpre)]
    exact List.mem_cons_self _ _

/-- C7, counterexample to the claim as stated: when the duplicated entry
appears twice under the *same* identifier, the identifier is queued for
removal and the substitution deletes both lines — the first-seen
identifier's entry line is NOT kept. -/
theorem fix_duplicates_counterexample :
    pbxMatches dupIdDoc =
      [("AAAA1111", "Foo.swift"), ("AAAA1111", "Foo.swift")] ∧
    entryLine "AAAA1111" "Foo.swift" ∈ dupIdDoc ∧
    fixRun dupIdDoc = [pbxMarker, filesLine, closeLine] ∧
    entryLine "AAAA1111" "Foo.swift" ∉ fixRun dupIdDoc := by
  exact ⟨by decide, by decide, by decide, by decide⟩

/-- C7, amended.  (1) On content already deduplicated — the matched names
of the main Sources section are pairwise distinct — the run removes
nothing and leaves the content unchanged (idempotence once converged).
(2) Provided the matched entry *identifiers* are pairwise distinct (as
Xcode UUIDs are), the canonical entry line of a match is kept exactly when
its file name was not seen earlier in the section: the first-seen
identifier per duplicated name survives and every subsequently-seen
identifier's entry line is removed. -/
theorem fix_duplicates_amended :
    (∀ doc : List String, ((pbxMatches doc).map Prod.snd).Nodup →
      fixRun doc = doc) ∧
    (∀ (doc : List String) (pre post : List (String × String)) (i n : String),
      ((pbxMatches doc).map Prod.fst).Nodup →
      pbxMatches doc = pre ++ (i, n) :: post →
      (entryLine i n ∈ fixRun doc ↔
        entryLine i n ∈ doc ∧ n ∉ pre.map Prod.snd)) := by
  constructor
  · intro doc hnd
    rw [fixRun]
    cases hidx : doc.findIdx? (fun l => containsStr pbxMarker l) with
    | none => rfl
    | some mi =>
      rw [filesToRemove,
        filesToRemoveAux_eq_nil (pbxMatches doc) [] hnd (by simp)]
      rfl
  · intro doc pre post i n hnd hms
    have hne : pbxMatches doc ≠ [] := by rw [hms]; simp
    have hmk := marker_found_of_matches_ne_nil hne
    have hin : (i, n) ∈ pbxMatches doc := by rw [hms]; simp
    obtain ⟨l', hl', hpl⟩ := List.mem_filterMap.mp hin
    have hsound := parseEntryLine_sound hpl
    have hrem_iff : ∀ fid ∈ filesToRemove (pbxMatches doc),
        (removalMatches fid (entryLine i n) = true ↔ fid = i) := by
      intro fid hfid
      have hfid_id : fid ∈ (pbxMatches doc).map Prod.fst :=
        filesToRemoveAux_subset_ids (pbxMatches doc) [] fid hfid
      obtain ⟨ff, hfm, hfe⟩ := List.mem_map.mp hfid_id
      obtain ⟨lf, hlf, hplf⟩ := List.mem_filterMap.mp hfm
      obtain ⟨f1, f2⟩ := ff
      have hfsound := parseEntryLine_sound hplf
      rw [show f1 = fid from hfe] at hfsound
      exact removalMatches_entryLine ⟨hfsound.1, hfsound.2.1⟩
        ⟨hsound.1, hsound.2.1⟩ hsound.2.2
    rw [fixRun_eq_filter hmk, List.mem_filter]
    constructor
    · rintro ⟨hdoc, hp⟩
      refine ⟨hdoc, ?_⟩
      intro hnpre
      have hirem : i ∈ filesToRemove (pbxMatches doc) := by
        rw [hms]
        exact (mem_filesToRemove_iff (hms ▸ hnd)).mpr hnpre
      have hany : ((filesToRemove (pbxMatches doc)).any fun fid =>
          removalMatches fid (entryLine i n)) = true :=
        List.any_eq_true.mpr ⟨i, hirem, (hrem_iff i hirem).mpr rfl⟩
      rw [hany] at hp
      exact absurd hp (by simp)
    · rintro ⟨hdoc, hnpre⟩
      refine ⟨hdoc, ?_⟩
      have hany : ((filesToRemove (pbxMatches doc)).any fun fid =>
          removalMatches fid (entryLine i n)) = false := by
        rw [List.any_eq_false]
        intro fid hfid hmatch
        have : fid = i := (hrem_iff fid hfid).mp hmatch
        subst this
        have : n ∈ pre.map Prod.snd := by
          refine (mem_filesToRemove_iff (hms ▸ hnd)).mp ?_
          rw [← hms]
          exact hfid
        exact hnpre this
      rw [hany]
      rfl

/-- Witness for `fix_duplicates_amended`: part one on a converged
document, part two showing the later of two distinct identifiers sharing a
name loses its entry line. -/
theorem fix_duplicates_amended_witness :
    fixRun dedupedDoc = dedupedDoc ∧
    entryLine "BBBB2222" "Foo.swift" ∉ fixRun dupNameDoc := by
  constructor
  · exact fix_duplicates_amended.1 dedupedDoc (by decide)
  · intro hmem
    have h := (fix_duplicates_amended.2 dupNameDoc
      [("AAAA1111", "Foo.swift")] [] "BBBB2222" "Foo.swift"
      (by decide) (by decide)).mp hmem
    exact h.2 (by decide)

/-- C10.  The removal substitution runs over the whole document: any line
of the document matched by a queued identifier's pattern is deleted, even
when it lies outside the located main Sources section — concretely, a
matching line placed after the section's closing `);` disappears. -/
theorem sub_applies_to_whole_document :
    (∀ (doc : List String) (l : String),
      (doc.findIdx? fun ln => containsStr pbxMarker ln).isSome →
      l ∈ doc →
      ((filesToRemove (pbxMatches doc)).any fun fid => removalMatches fid l)
        = true →
      l ∉ fixRun doc) ∧
    (entryLine "BBBB2222" "Other.swift" ∈ outsideDoc ∧
     entryLine "BBBB2222" "Other.swift" ∉ sectionLines outsideDoc ∧
     fixRun outsideDoc =
       [pbxMarker, filesLine, entryLine "AAAA1111" "Foo.swift", closeLine] ∧
     entryLine "BBBB2222" "Other.swift" ∉ fixRun outsideDoc) := by
  constructor
  · intro doc l hmk hl hany hmem
    rw [fixRun_eq_filter hmk] at hmem
    have hp := (List.mem_filter.mp hmem).2
    rw [hany] at hp
    exact absurd hp (by simp)
  · exact ⟨by decide, by decide, by decide, by decide⟩

/-- Witness for `sub_applies_to_whole_document` at the concrete document
with a matching line outside the section. -/
theorem sub_applies_to_whole_document_witness :
    (entryLine "BBBB2222" "Other.swift" : String) ∉ fixRun outsideDoc :=
  sub_applies_to_whole_document.1 outsideDoc
    (entryLine "BBBB2222" "Other.swift") (by decide) (by decide) (by decide)

end Encorely
